import Mathlib

/-!
Shallow embedding of the string-keyed hash map in `src/map.c`.

C structures are modelled as follows.

* `struct cell { struct cell *next; void *value; char key[]; }` — a bucket's
  linked list of cells is a Lean list of `(key, value)` pairs, head of the
  chain first.  A key (a NUL-terminated C string) is the list of its bytes
  before the terminator; `strcmp(a, b) == 0` is list equality.  A value
  (`void *`) is an opaque handle, modelled as a natural number.
* `struct map { struct cell **elems; int capacity; int size; }` — the bucket
  array `elems` is a list of chains and `size` a counter.  In the C code the
  stored `capacity` field always equals the allocated length of `elems`
  (`calloc(1, ...)` in `map_create`, `calloc(m->capacity, ...)` in
  `extend_if_necessary`), so here `capacity` is the length of `elems`.
* `hash` works on `unsigned int`, i.e. modulo 2^32; the byte read through
  `(unsigned char) *key` is modelled as `b % 256`.
* `map_get`/`map_remove`/`map_next` crash (`assert`/`exit(1)`) on their
  key-not-found branches; the embedding returns `Option` results where
  `none` marks that abnormal-termination branch, producing no new map state.
-/

namespace CMap

/-- A key: the bytes of a NUL-terminated C string, terminator excluded. -/
abbrev Key := List Nat

/-- A stored value handle (`void *`), opaque to the map. -/
abbrev Value := Nat

/-- One bucket: the chain of cells hanging off one `elems` slot, head first. -/
abbrev Chain := List (Key × Value)

/-- `struct map`: the bucket array and the live-entry counter.  The C field
`capacity` always equals the allocated length of `elems`, so it is derived
(`Map.capacity`) rather than stored. -/
structure Map where
  elems : List Chain
  size : Nat
deriving Repr, DecidableEq

/-- The `capacity` field of `struct map`: the length of the bucket array. -/
def Map.capacity (m : Map) : Nat := m.elems.length

/-- `hash` (map.c:215): seed `(unsigned) -1`, then for each byte
`hash *= 31; hash ^= (unsigned char) *key`, all on `unsigned int`. -/
def hash (key : Key) : Nat :=
  key.foldl (fun h c => (h * 31 % 2 ^ 32) ^^^ (c % 256)) (2 ^ 32 - 1)

/-- `hash(key) % m->capacity`: the bucket index used by every operation. -/
def bucketIdx (m : Map) (key : Key) : Nat := hash key % m.capacity

/-- `m->elems[b]`: the chain stored in slot `b`. -/
def bucket (m : Map) (b : Nat) : Chain := m.elems.getD b []

/-- `map_create` (map.c:28): one bucket slot (`calloc(1, ...)`), size 0. -/
def map_create : Map := { elems := [[]], size := 0 }

/-- `map_size` (map.c:70). -/
def map_size (m : Map) : Nat := m.size

/-- The scan loop shared by `map_contains` (map.c:83): walk the chain
comparing keys with `strcmp`. -/
def chainContains (key : Key) : Chain → Bool
  | [] => false
  | c :: rest => c.1 == key || chainContains key rest

/-- `map_contains` (map.c:79). -/
def map_contains (m : Map) (key : Key) : Bool :=
  chainContains key (bucket m (bucketIdx m key))

/-- The scan loop of `map_get` (map.c:129): first cell with a matching key,
or `none` for the crash branch. -/
def chainFind (key : Key) : Chain → Option Value
  | [] => none
  | c :: rest => if c.1 = key then some c.2 else chainFind key rest

/-- `map_get` (map.c:125).  `none` is the `assert(key_found); exit(1)`
branch. -/
def map_get (m : Map) (key : Key) : Option Value :=
  chainFind key (bucket m (bucketIdx m key))

/-- The first loop of `map_set` (map.c:100): if some cell has the key,
overwrite its value in place (the stored key is untouched) and report the
updated chain; otherwise `none` (fall through to insertion). -/
def chainSet (key : Key) (v : Value) : Chain → Option Chain
  | [] => none
  | c :: rest =>
    if c.1 = key then some ((c.1, v) :: rest)
    else (chainSet key v rest).map (fun ch => c :: ch)

/-- The body of one `curr` step of the rehash loop (map.c:247): move one cell
to the head of its new bucket `hash(key) % newCap` in the accumulated new
array. -/
def rehashCell (newCap : Nat) (acc : List Chain) (c : Key × Value) : List Chain :=
  acc.set (hash c.1 % newCap) (c :: acc.getD (hash c.1 % newCap) [])

/-- `extend_if_necessary` (map.c:229): when `size == capacity`, double the
capacity, allocate a zeroed bucket array of the new capacity, and move every
cell of every old bucket (buckets in index order, each chain head to tail)
to the head of its recomputed bucket. -/
def extend_if_necessary (m : Map) : Map :=
  if m.size = m.capacity then
    { elems := m.elems.foldl
        (fun acc chain => chain.foldl (rehashCell (2 * m.capacity)) acc)
        (List.replicate (2 * m.capacity) []),
      size := m.size }
  else m

/-- `map_set` (map.c:95): update in place when the key exists; otherwise
grow if necessary, recompute the bucket with the (possibly new) capacity,
and insert a fresh cell at the head of that chain, incrementing `size`. -/
def map_set (m : Map) (key : Key) (v : Value) : Map :=
  let b := bucketIdx m key
  match chainSet key v (bucket m b) with
  | some chain => { m with elems := m.elems.set b chain }
  | none =>
    let m1 := extend_if_necessary m
    let b1 := bucketIdx m1 key
    { elems := m1.elems.set b1 ((key, v) :: bucket m1 b1), size := m1.size + 1 }

/-- The removal loop of `map_remove` (map.c:149): unlink the first cell with
a matching key, returning its value and the shortened chain; `none` is the
crash branch. -/
def chainRemove (key : Key) : Chain → Option (Value × Chain)
  | [] => none
  | c :: rest =>
    if c.1 = key then some (c.2, rest)
    else (chainRemove key rest).map (fun p => (p.1, c :: p.2))

/-- `map_remove` (map.c:144).  On success, the value handle of the unlinked
cell and the map after the bridge-and-decrement; `none` is the
`assert(key_found); exit(1)` branch, which produces no new map state. -/
def map_remove (m : Map) (key : Key) : Option (Value × Map) :=
  let b := bucketIdx m key
  match chainRemove key (bucket m b) with
  | some p => some (p.1, { elems := m.elems.set b p.2, size := m.size - 1 })
  | none => none

/-- The scan of `map_first` (map.c:176): head key of the first non-empty
bucket, in increasing slot order. -/
def firstKey : List Chain → Option Key
  | [] => none
  | [] :: rest => firstKey rest
  | (c :: _) :: _ => some c.1

/-- `map_first` (map.c:173).  `none` models the `NULL` sentinel. -/
def map_first (m : Map) : Option Key := firstKey m.elems

/-- Locating the cell that owns `key` (map.c:195 does this by pointer
arithmetic on the key's address): the part of the chain after that cell, or
`none` when no cell owns `key` (undefined behaviour in C). -/
def chainAfter (key : Key) : Chain → Option Chain
  | [] => none
  | c :: rest => if c.1 = key then some rest else chainAfter key rest

/-- `map_next` (map.c:192): the next cell of the owning chain if any,
otherwise the head key of the first non-empty bucket strictly after slot
`hash(key) % capacity`.  `none` models the `NULL` sentinel; when `key` owns
no cell (a contract violation, undefined behaviour in C) the result is also
`none`. -/
def map_next (m : Map) (key : Key) : Option Key :=
  match chainAfter key (bucket m (bucketIdx m key)) with
  | some (c :: _) => some c.1
  | some [] => firstKey (m.elems.drop (bucketIdx m key + 1))
  | none => none

/-- The key sequence `bucket 0 chain (head first), bucket 1 chain, ...`:
the order in which `map_first`/`map_next` visit the table. -/
def keys (m : Map) : List Key := m.elems.flatten.map Prod.fst

/-- The `first`/`next` walk: start from a cursor, repeatedly take
`map_next`, collecting keys; `fuel` bounds the number of steps. -/
def walkFrom (m : Map) : Nat → Option Key → List Key
  | _, none => []
  | 0, some _ => []
  | fuel + 1, some k => k :: walkFrom m fuel (map_next m k)

/-- The whole iteration of map.h's usage comment: walk from `map_first`. -/
def mapWalk (m : Map) (fuel : Nat) : List Key := walkFrom m fuel (map_first m)

/-- Structural well-formedness maintained by the C code: the bucket array is
non-empty, `size` counts the cells, every cell sits in the slot selected by
its key's hash, and no two cells share a key. -/
def Wf (m : Map) : Prop :=
  0 < m.capacity ∧
  m.size = m.elems.flatten.length ∧
  (∀ i < m.capacity, ∀ c ∈ bucket m i, hash c.1 % m.capacity = i) ∧
  (keys m).Nodup

instance (m : Map) : Decidable (Wf m) := by
  unfold Wf
  infer_instance

/-- Every cell lives in the slot picked by its key's hash (stated for all
slot indices; slots past the array are empty, so the statement is vacuous
there). -/
def Placed (m : Map) : Prop := ∀ i, ∀ c ∈ bucket m i, hash c.1 % m.capacity = i

/-- Maps reachable from `map_create` through the mutating interface. -/
inductive Reachable : Map → Prop
  | create : Reachable map_create
  | set (m : Map) (key : Key) (v : Value) : Reachable m → Reachable (map_set m key v)
  | remove (m : Map) (key : Key) (v : Value) (m2 : Map) : Reachable m →
      map_remove m key = some (v, m2) → Reachable m2

/-- The hash as the specification words it: fold with step
`h := ((h * 31) XOR byte) mod 2^32` from the all-ones 32-bit seed.  Stated
from the spec, to be compared with `hash`, which is stated from the code. -/
def hashSpecFold (key : Key) : Nat :=
  key.foldl (fun h b => ((h * 31) ^^^ b) % 2 ^ 32) (2 ^ 32 - 1)

/-- The element following the (first) occurrence of `k` in a key list,
`none` when `k` is last or absent. -/
def afterFirst (k : Key) : List Key → Option Key
  | [] => none
  | k2 :: rest => if k2 = k then rest.head? else afterFirst k rest

end CMap

namespace CMap

/-! ### Chain-level lemmas -/

theorem chainContains_iff (key : Key) (ch : Chain) :
    chainContains key ch = true ↔ key ∈ ch.map Prod.fst := by
  induction ch with
  | nil => simp [chainContains]
  | cons c rest ih =>
    simp only [chainContains, Bool.or_eq_true, beq_iff_eq, ih, List.map_cons,
      List.mem_cons]
    exact or_congr_left eq_comm

theorem chainContains_eq_false_iff (key : Key) (ch : Chain) :
    chainContains key ch = false ↔ key ∉ ch.map Prod.fst := by
  rw [← chainContains_iff, Bool.eq_false_iff, Ne]

theorem chainFind_eq_none_iff (key : Key) (ch : Chain) :
    chainFind key ch = none ↔ chainContains key ch = false := by
  induction ch with
  | nil => simp [chainFind, chainContains]
  | cons c rest ih =>
    simp only [chainFind, chainContains]
    split
    · simp_all
    · simp_all [beq_iff_eq]

theorem chainFind_mem (key : Key) (v : Value) (ch : Chain)
    (h : chainFind key ch = some v) : (key, v) ∈ ch := by
  induction ch with
  | nil => simp [chainFind] at h
  | cons c rest ih =>
    simp only [chainFind] at h
    split at h
    · obtain ⟨c1, c2⟩ := c
      simp_all
    · exact List.mem_cons_of_mem _ (ih h)

theorem chainFind_isSome_of_mem (key : Key) (v : Value) (ch : Chain)
    (h : (key, v) ∈ ch) : ∃ w, chainFind key ch = some w := by
  induction ch with
  | nil => simp at h
  | cons c rest ih =>
    simp only [chainFind]
    split
    · exact ⟨c.2, rfl⟩
    · rcases List.mem_cons.mp h with h1 | h1
      · exact absurd (congrArg Prod.fst h1.symm) (by simp_all)
      · exact ih h1

theorem chainFind_eq_of_nodup (key : Key) (v : Value) (ch : Chain)
    (hnd : (ch.map Prod.fst).Nodup) (h : (key, v) ∈ ch) :
    chainFind key ch = some v := by
  induction ch with
  | nil => simp at h
  | cons c rest ih =>
    simp only [List.map_cons, List.nodup_cons] at hnd
    simp only [chainFind]
    split
    · rcases List.mem_cons.mp h with h1 | h1
      · simp [← h1]
      · exact absurd (by simpa using List.mem_map_of_mem Prod.fst h1)
          (by simp_all)
    · rcases List.mem_cons.mp h with h1 | h1
      · exact absurd (congrArg Prod.fst h1.symm) (by simp_all)
      · exact ih hnd.2 h1

theorem chainFind_append_of_not_contains (key : Key) (pre rest : Chain)
    (h : chainContains key pre = false) :
    chainFind key (pre ++ rest) = chainFind key rest := by
  induction pre with
  | nil => simp
  | cons c p ih =>
    simp only [chainContains, Bool.or_eq_false_iff] at h
    simp only [List.cons_append, chainFind]
    rw [if_neg (by simpa [beq_iff_eq] using h.1)]
    exact ih h.2

theorem chainSet_eq_none_iff (key : Key) (v : Value) (ch : Chain) :
    chainSet key v ch = none ↔ chainContains key ch = false := by
  induction ch with
  | nil => simp [chainSet, chainContains]
  | cons c rest ih =>
    simp only [chainSet, chainContains]
    split
    · simp_all
    · cases hr : chainSet key v rest <;> simp_all [beq_iff_eq]

theorem chainSet_some_spec (key : Key) (v : Value) (ch ch2 : Chain)
    (h : chainSet key v ch = some ch2) :
    ch2.map Prod.fst = ch.map Prod.fst ∧ chainFind key ch2 = some v ∧
      ch2.length = ch.length := by
  induction ch generalizing ch2 with
  | nil => simp [chainSet] at h
  | cons c rest ih =>
    simp only [chainSet] at h
    split at h
    · obtain rfl : (c.1, v) :: rest = ch2 := by simpa using h
      refine ⟨by simp, ?_, by simp⟩
      simp_all [chainFind]
    · cases hr : chainSet key v rest with
      | none => simp [hr] at h
      | some r2 =>
        obtain rfl : c :: r2 = ch2 := by simpa [hr] using h
        obtain ⟨h1, h2, h3⟩ := ih r2 hr
        refine ⟨by simp [h1], ?_, by simp [h3]⟩
        simp_all [chainFind]

theorem chainRemove_eq_none_iff (key : Key) (ch : Chain) :
    chainRemove key ch = none ↔ chainContains key ch = false := by
  induction ch with
  | nil => simp [chainRemove, chainContains]
  | cons c rest ih =>
    simp only [chainRemove, chainContains]
    split
    · simp_all
    · cases hr : chainRemove key rest <;> simp_all [beq_iff_eq]

theorem chainRemove_some_spec (key : Key) (v : Value) (ch ch2 : Chain)
    (h : chainRemove key ch = some (v, ch2)) :
    ∃ pre suf, ch = pre ++ (key, v) :: suf ∧ ch2 = pre ++ suf ∧
      chainContains key pre = false := by
  induction ch generalizing v ch2 with
  | nil => simp [chainRemove] at h
  | cons c rest ih =>
    simp only [chainRemove] at h
    split at h
    · obtain ⟨h1, h2⟩ : c.2 = v ∧ rest = ch2 := by simpa using h
      refine ⟨[], rest, ?_, by simp [h2], by simp [chainContains]⟩
      obtain ⟨c1, c2⟩ := c
      simp_all
    · cases hr : chainRemove key rest with
      | none => simp [hr] at h
      | some p =>
        obtain ⟨h1, h2⟩ : p.1 = v ∧ c :: p.2 = ch2 := by simpa [hr] using h
        obtain ⟨pre, suf, g1, g2, g3⟩ := ih p.1 p.2 (by simp [hr])
        refine ⟨c :: pre, suf, by simp [g1, h1], by simp [← h2, g2], ?_⟩
        simp_all [chainContains, beq_iff_eq]

theorem chainAfter_eq_none_iff (key : Key) (ch : Chain) :
    chainAfter key ch = none ↔ chainContains key ch = false := by
  induction ch with
  | nil => simp [chainAfter, chainContains]
  | cons c rest ih =>
    simp only [chainAfter, chainContains]
    split
    · simp_all
    · simp_all [beq_iff_eq]

theorem chainAfter_some_spec (key : Key) (ch suf : Chain)
    (h : chainAfter key ch = some suf) :
    ∃ pre v, ch = pre ++ (key, v) :: suf ∧ chainContains key pre = false := by
  induction ch generalizing suf with
  | nil => simp [chainAfter] at h
  | cons c rest ih =>
    simp only [chainAfter] at h
    split at h
    · obtain rfl : rest = suf := by simpa using h
      refine ⟨[], c.2, ?_, by simp [chainContains]⟩
      obtain ⟨c1, c2⟩ := c
      simp_all
    · obtain ⟨pre, v, g1, g2⟩ := ih suf h
      exact ⟨c :: pre, v, by simp [g1], by simp_all [chainContains, beq_iff_eq]⟩

theorem chainAfter_isSome (key : Key) (ch : Chain)
    (h : chainContains key ch = true) : ∃ suf, chainAfter key ch = some suf := by
  cases ha : chainAfter key ch with
  | none => rw [chainAfter_eq_none_iff] at ha; simp_all
  | some suf => exact ⟨suf, rfl⟩

end CMap

namespace CMap

/-! ### Bucket-array helpers -/

theorem getD_replicate_nil (n i : Nat) :
    (List.replicate n ([] : Chain)).getD i [] = [] := by
  induction n generalizing i with
  | zero => simp
  | succ n ih => cases i <;> simp [List.replicate, ih]

theorem flatten_replicate_nil (n : Nat) :
    (List.replicate n ([] : Chain)).flatten = [] := by
  induction n with
  | zero => simp
  | succ n ih => simp [List.replicate, ih]

theorem getD_set_self {α : Type} (l : List α) (b : Nat) (x d : α)
    (h : b < l.length) : (l.set b x).getD b d = x := by
  rw [List.getD_eq_getElem _ _ (by simpa using h)]
  exact List.getElem_set_self _

theorem getD_set_ne {α : Type} (l : List α) (b i : Nat) (x d : α)
    (h : i ≠ b) : (l.set b x).getD i d = l.getD i d := by
  by_cases hi : i < l.length
  · rw [List.getD_eq_getElem _ _ (by simpa using hi), List.getD_eq_getElem _ _ hi]
    exact List.getElem_set_ne (fun hbi => h hbi.symm) _
  · rw [List.getD_eq_default _ _ (by simpa using Nat.le_of_not_lt hi),
      List.getD_eq_default _ _ (Nat.le_of_not_lt hi)]

theorem drop_eq_getD_cons {α : Type} (l : List α) (b : Nat) (d : α)
    (h : b < l.length) : l.drop b = l.getD b d :: l.drop (b + 1) := by
  induction l generalizing b with
  | nil => simp at h
  | cons a t ih =>
    cases b with
    | zero => simp
    | succ b => simpa using ih b (by simpa using h)

theorem flatten_decomp {α : Type} (l : List (List α)) (b : Nat)
    (h : b < l.length) :
    l.flatten = (l.take b).flatten ++ l.getD b [] ++ (l.drop (b + 1)).flatten := by
  conv_lhs => rw [← List.take_append_drop b l]
  rw [List.flatten_append, drop_eq_getD_cons l b [] h]
  simp [List.append_assoc]

theorem flatten_set {α : Type} (l : List (List α)) (b : Nat) (ch : List α)
    (h : b < l.length) :
    (l.set b ch).flatten = (l.take b).flatten ++ ch ++ (l.drop (b + 1)).flatten := by
  rw [List.set_eq_take_append_cons_drop, if_pos h, List.flatten_append]
  simp [List.append_assoc]

theorem flatten_set_perm {α : Type} (l : List (List α)) (b : Nat) (x : α)
    (h : b < l.length) :
    ((l.set b (x :: l.getD b [])).flatten).Perm (x :: l.flatten) := by
  rw [flatten_set _ _ _ h, flatten_decomp l b h]
  simp [List.append_assoc]

/-! ### Rehash lemmas -/

theorem rehash_foldl_length (cap : Nat) (cells : Chain) (acc : List Chain) :
    (cells.foldl (rehashCell cap) acc).length = acc.length := by
  induction cells generalizing acc with
  | nil => rfl
  | cons c cs ih => simp [List.foldl_cons, ih, rehashCell]

theorem rehash_foldl_perm (cap : Nat) (cells : Chain) (acc : List Chain)
    (hlen : acc.length = cap) (hpos : 0 < cap) :
    ((cells.foldl (rehashCell cap) acc).flatten).Perm (cells ++ acc.flatten) := by
  induction cells generalizing acc with
  | nil => simp
  | cons c cs ih =>
    rw [List.foldl_cons]
    have h1 : hash c.1 % cap < acc.length := by
      rw [hlen]; exact Nat.mod_lt _ hpos
    have h2 := ih (rehashCell cap acc c) (by simp [rehashCell, hlen])
    refine h2.trans ?_
    have h3 : ((rehashCell cap acc c).flatten).Perm (c :: acc.flatten) :=
      flatten_set_perm _ _ _ h1
    refine (h3.append_left cs).trans ?_
    simp only [List.cons_append]
    exact List.perm_middle

theorem rehash_foldl_placed (cap : Nat) (cells : Chain) (acc : List Chain)
    (hlen : acc.length = cap) (hpos : 0 < cap)
    (hpl : ∀ i, ∀ c ∈ acc.getD i [], hash c.1 % cap = i) :
    ∀ i, ∀ c ∈ (cells.foldl (rehashCell cap) acc).getD i [],
      hash c.1 % cap = i := by
  induction cells generalizing acc with
  | nil => exact hpl
  | cons c cs ih =>
    rw [List.foldl_cons]
    refine ih (rehashCell cap acc c) (by simp [rehashCell, hlen]) ?_
    intro i d hd
    by_cases hib : i = hash c.1 % cap
    · subst hib
      rw [rehashCell, getD_set_self _ _ _ _ (by rw [hlen]; exact Nat.mod_lt _ hpos)] at hd
      rcases List.mem_cons.mp hd with h1 | h1
      · rw [h1]
      · exact hpl _ d h1
    · rw [rehashCell, getD_set_ne _ _ _ _ _ hib] at hd
      exact hpl i d hd

/-! ### `extend_if_necessary` lemmas -/

theorem wf_placed (m : Map) (h : Wf m) : Placed m := by
  obtain ⟨hpos, hsz, hpl, hnd⟩ := h
  intro i c hc
  by_cases hi : i < m.capacity
  · exact hpl i hi c hc
  · rw [bucket, List.getD_eq_default _ _ (Nat.le_of_not_lt hi)] at hc
    simp at hc

theorem extend_size (m : Map) : (extend_if_necessary m).size = m.size := by
  rw [extend_if_necessary]
  split <;> rfl

theorem extend_eq_of_ne (m : Map) (h : ¬m.size = m.capacity) :
    extend_if_necessary m = m := by
  rw [extend_if_necessary, if_neg h]

theorem extend_elems_eq (m : Map) (h : m.size = m.capacity) :
    (extend_if_necessary m).elems =
      (m.elems.flatten).foldl (rehashCell (2 * m.capacity))
        (List.replicate (2 * m.capacity) []) := by
  rw [extend_if_necessary, if_pos h, List.foldl_flatten]

theorem extend_capacity_of_eq (m : Map) (h : m.size = m.capacity) :
    (extend_if_necessary m).capacity = 2 * m.capacity := by
  rw [Map.capacity, extend_elems_eq m h, rehash_foldl_length]
  simp

theorem extend_capacity_pos (m : Map) (h : 0 < m.capacity) :
    0 < (extend_if_necessary m).capacity := by
  by_cases he : m.size = m.capacity
  · rw [extend_capacity_of_eq m he]; omega
  · rw [extend_eq_of_ne m he]; exact h

theorem extend_flatten_perm (m : Map) (h : 0 < m.capacity) :
    ((extend_if_necessary m).elems.flatten).Perm (m.elems.flatten) := by
  by_cases he : m.size = m.capacity
  · rw [extend_elems_eq m he]
    have hp := rehash_foldl_perm (2 * m.capacity) (m.elems.flatten)
      (List.replicate (2 * m.capacity) []) (by simp) (by omega)
    simpa [flatten_replicate_nil] using hp
  · rw [extend_eq_of_ne m he]

theorem extend_placed (m : Map) (h : 0 < m.capacity) (hpl : Placed m) :
    Placed (extend_if_necessary m) := by
  by_cases he : m.size = m.capacity
  · intro i c hc
    rw [bucket, extend_elems_eq m he] at hc
    rw [extend_capacity_of_eq m he]
    refine rehash_foldl_placed (2 * m.capacity) (m.elems.flatten) _ (by simp)
      (by omega) ?_ i c hc
    intro j d hd
    rw [getD_replicate_nil] at hd
    simp at hd
  · rw [extend_eq_of_ne m he]; exact hpl

theorem extend_keys_perm (m : Map) (h : 0 < m.capacity) :
    (keys (extend_if_necessary m)).Perm (keys m) :=
  (extend_flatten_perm m h).map Prod.fst

theorem extend_wf (m : Map) (h : Wf m) : Wf (extend_if_necessary m) := by
  obtain ⟨hpos, hsz, hpl, hnd⟩ := h
  refine ⟨extend_capacity_pos m hpos, ?_, ?_, ?_⟩
  · rw [extend_size, ((extend_flatten_perm m hpos).length_eq), ← hsz]
  · intro i _ c hc
    exact extend_placed m hpos (wf_placed m ⟨hpos, hsz, hpl, hnd⟩) i c hc
  · exact ((extend_keys_perm m hpos).nodup_iff).mpr hnd

end CMap

namespace CMap

/-! ### Membership bridging lemmas -/

theorem set_getD_self {α : Type} (l : List α) (b : Nat) (d : α) :
    l.set b (l.getD b d) = l := by
  induction l generalizing b with
  | nil => simp
  | cons a t ih =>
    cases b with
    | zero => simp
    | succ b =>
      simp only [List.getD_cons_succ, List.set_cons_succ]
      rw [ih b]

theorem bucketIdx_lt (m : Map) (key : Key) (hpos : 0 < m.capacity) :
    bucketIdx m key < m.elems.length := Nat.mod_lt _ hpos

theorem bucket_mem_elems (m : Map) (b : Nat) (h : b < m.capacity) :
    bucket m b ∈ m.elems := by
  rw [bucket, List.getD_eq_getElem _ _ h]
  exact List.getElem_mem h

theorem mem_flatten_of_mem_bucket (m : Map) (b : Nat) (c : Key × Value)
    (h : b < m.capacity) (hc : c ∈ bucket m b) : c ∈ m.elems.flatten :=
  List.mem_flatten.mpr ⟨bucket m b, bucket_mem_elems m b h, hc⟩

theorem exists_bucket_of_mem_flatten (m : Map) (c : Key × Value)
    (h : c ∈ m.elems.flatten) : ∃ i, i < m.capacity ∧ c ∈ bucket m i := by
  obtain ⟨ch, hch, hc⟩ := List.mem_flatten.mp h
  obtain ⟨i, hi, heq⟩ := List.mem_iff_getElem.mp hch
  refine ⟨i, hi, ?_⟩
  rw [bucket, List.getD_eq_getElem _ _ hi, heq]
  exact hc

theorem contains_iff_mem_keys (m : Map) (key : Key) (hpos : 0 < m.capacity)
    (hpl : Placed m) : map_contains m key = true ↔ key ∈ keys m := by
  constructor
  · intro h
    rw [map_contains, chainContains_iff] at h
    obtain ⟨c, hc, hck⟩ := List.mem_map.mp h
    have hm : c ∈ m.elems.flatten :=
      mem_flatten_of_mem_bucket m _ c (Nat.mod_lt _ hpos) hc
    rw [keys, ← hck]
    exact List.mem_map_of_mem Prod.fst hm
  · intro h
    rw [keys] at h
    obtain ⟨c, hc, hck⟩ := List.mem_map.mp h
    obtain ⟨i, hi, hcb⟩ := exists_bucket_of_mem_flatten m c hc
    have hbi : i = bucketIdx m key := by
      rw [bucketIdx, ← hck]
      exact (hpl i c hcb).symm
    rw [map_contains, chainContains_iff, ← hbi]
    exact List.mem_map.mpr ⟨c, hcb, hck⟩

theorem bucket_keys_nodup (m : Map) (b : Nat) (hnd : (keys m).Nodup)
    (h : b < m.capacity) : ((bucket m b).map Prod.fst).Nodup := by
  rw [keys, flatten_decomp m.elems b h] at hnd
  simp only [List.map_append, List.append_assoc] at hnd
  exact (hnd.of_append_right).of_append_left

theorem get_eq_some_iff (m : Map) (key : Key) (v : Value)
    (hpos : 0 < m.capacity) (hpl : Placed m) (hnd : (keys m).Nodup) :
    map_get m key = some v ↔ (key, v) ∈ m.elems.flatten := by
  constructor
  · intro h
    exact mem_flatten_of_mem_bucket m _ _ (Nat.mod_lt _ hpos)
      (chainFind_mem key v _ h)
  · intro h
    obtain ⟨i, hi, hcb⟩ := exists_bucket_of_mem_flatten m (key, v) h
    have hbi : i = bucketIdx m key := (hpl i _ hcb).symm
    rw [map_get, ← hbi]
    exact chainFind_eq_of_nodup key v _ (bucket_keys_nodup m i hnd hi) hcb

theorem get_eq_none_iff (m : Map) (key : Key) :
    map_get m key = none ↔ map_contains m key = false :=
  chainFind_eq_none_iff key (bucket m (bucketIdx m key))

theorem get_isSome_of_contains (m : Map) (key : Key)
    (h : map_contains m key = true) : ∃ v, map_get m key = some v := by
  cases hg : map_get m key with
  | none => rw [get_eq_none_iff] at hg; simp_all
  | some v => exact ⟨v, rfl⟩

theorem contains_of_get_eq_some (m : Map) (key : Key) (v : Value)
    (h : map_get m key = some v) : map_contains m key = true := by
  cases hc : map_contains m key with
  | false => rw [← get_eq_none_iff] at hc; simp_all
  | true => rfl

end CMap

namespace CMap

/-! ### `map_set`, replace branch -/

theorem map_set_eq_replace (m : Map) (key : Key) (v : Value) (ch2 : Chain)
    (h : chainSet key v (bucket m (bucketIdx m key)) = some ch2) :
    map_set m key v =
      { elems := m.elems.set (bucketIdx m key) ch2, size := m.size } := by
  rw [map_set]
  simp only [h]

theorem map_set_eq_insert (m : Map) (key : Key) (v : Value)
    (h : chainSet key v (bucket m (bucketIdx m key)) = none) :
    map_set m key v =
      { elems := (extend_if_necessary m).elems.set
          (bucketIdx (extend_if_necessary m) key)
          ((key, v) :: bucket (extend_if_necessary m)
            (bucketIdx (extend_if_necessary m) key)),
        size := (extend_if_necessary m).size + 1 } := by
  rw [map_set]
  simp only [h]

theorem chainSet_none_of_not_contains (m : Map) (key : Key) (v : Value)
    (hc : map_contains m key = false) :
    chainSet key v (bucket m (bucketIdx m key)) = none := by
  rw [chainSet_eq_none_iff]
  exact hc

theorem chainSet_some_of_contains (m : Map) (key : Key) (v : Value)
    (hc : map_contains m key = true) :
    ∃ ch2, chainSet key v (bucket m (bucketIdx m key)) = some ch2 := by
  cases hcs : chainSet key v (bucket m (bucketIdx m key)) with
  | none => rw [chainSet_eq_none_iff] at hcs; rw [map_contains] at hc; simp_all
  | some ch2 => exact ⟨ch2, rfl⟩

theorem bucket_keys_of_elems_keys_eq (m m2 : Map)
    (h : m2.elems.map (List.map Prod.fst) = m.elems.map (List.map Prod.fst))
    (i : Nat) : (bucket m2 i).map Prod.fst = (bucket m i).map Prod.fst := by
  have h1 := List.getD_map m2.elems ([] : Chain) (List.map Prod.fst) (n := 0)
  calc (bucket m2 i).map Prod.fst
      = (m2.elems.map (List.map Prod.fst)).getD i [] :=
        (List.getD_map m2.elems ([] : Chain) (List.map Prod.fst)).symm
    _ = (m.elems.map (List.map Prod.fst)).getD i [] := by rw [h]
    _ = (bucket m i).map Prod.fst :=
        List.getD_map m.elems ([] : Chain) (List.map Prod.fst)

theorem keys_of_elems_keys_eq (m m2 : Map)
    (h : m2.elems.map (List.map Prod.fst) = m.elems.map (List.map Prod.fst)) :
    keys m2 = keys m := by
  rw [keys, keys, List.map_flatten, List.map_flatten, h]

theorem placed_of_bucket_keys_eq (m m2 : Map)
    (hcap : m2.capacity = m.capacity)
    (hb : ∀ i, (bucket m2 i).map Prod.fst = (bucket m i).map Prod.fst)
    (hpl : Placed m) : Placed m2 := by
  intro i c hc
  have hm : c.1 ∈ (bucket m i).map Prod.fst := by
    rw [← hb i]
    exact List.mem_map_of_mem Prod.fst hc
  obtain ⟨d, hd, hdk⟩ := List.mem_map.mp hm
  rw [hcap, ← hdk]
  exact hpl i d hd

theorem set_replace_elems_keys (m : Map) (key : Key) (v : Value) (ch2 : Chain)
    (h : chainSet key v (bucket m (bucketIdx m key)) = some ch2) :
    (map_set m key v).elems.map (List.map Prod.fst) =
      m.elems.map (List.map Prod.fst) := by
  obtain ⟨hk, hfind, hlen⟩ := chainSet_some_spec key v _ ch2 h
  rw [map_set_eq_replace m key v ch2 h]
  show (m.elems.set (bucketIdx m key) ch2).map (List.map Prod.fst) = _
  rw [List.map_set, hk]
  rw [show (bucket m (bucketIdx m key)).map Prod.fst
      = (m.elems.map (List.map Prod.fst)).getD (bucketIdx m key) [] from
    (List.getD_map m.elems ([] : Chain) (List.map Prod.fst)).symm]
  exact set_getD_self _ _ _

theorem set_replace_capacity (m : Map) (key : Key) (v : Value) (ch2 : Chain)
    (h : chainSet key v (bucket m (bucketIdx m key)) = some ch2) :
    (map_set m key v).capacity = m.capacity := by
  rw [map_set_eq_replace m key v ch2 h, Map.capacity, Map.capacity]
  exact List.length_set m.elems _ _

theorem set_replace_size (m : Map) (key : Key) (v : Value) (ch2 : Chain)
    (h : chainSet key v (bucket m (bucketIdx m key)) = some ch2) :
    (map_set m key v).size = m.size := by
  rw [map_set_eq_replace m key v ch2 h]

theorem set_replace_get (m : Map) (key : Key) (v : Value) (ch2 : Chain)
    (hpos : 0 < m.capacity)
    (h : chainSet key v (bucket m (bucketIdx m key)) = some ch2) :
    map_get (map_set m key v) key = some v := by
  obtain ⟨hk, hfind, hlen⟩ := chainSet_some_spec key v _ ch2 h
  have hcap := set_replace_capacity m key v ch2 h
  have hb : bucketIdx (map_set m key v) key = bucketIdx m key := by
    rw [bucketIdx, bucketIdx, hcap]
  rw [map_get, hb, map_set_eq_replace m key v ch2 h]
  show chainFind key ((m.elems.set (bucketIdx m key) ch2).getD (bucketIdx m key) []) = some v
  rw [getD_set_self m.elems (bucketIdx m key) ch2 [] (bucketIdx_lt m key hpos)]
  exact hfind

end CMap

namespace CMap

theorem set_replace_keys (m : Map) (key : Key) (v : Value) (ch2 : Chain)
    (h : chainSet key v (bucket m (bucketIdx m key)) = some ch2) :
    keys (map_set m key v) = keys m :=
  keys_of_elems_keys_eq m (map_set m key v) (set_replace_elems_keys m key v ch2 h)

theorem set_replace_wf (m : Map) (key : Key) (v : Value) (ch2 : Chain)
    (hwf : Wf m) (h : chainSet key v (bucket m (bucketIdx m key)) = some ch2) :
    Wf (map_set m key v) := by
  obtain ⟨hpos, hsz, hpl, hnd⟩ := hwf
  have hek := set_replace_elems_keys m key v ch2 h
  have hkeys := keys_of_elems_keys_eq m (map_set m key v) hek
  have hcap := set_replace_capacity m key v ch2 h
  have hlen : (map_set m key v).elems.flatten.length = m.elems.flatten.length := by
    have h2 := congrArg List.length hkeys
    rw [keys, keys, List.length_map, List.length_map] at h2
    exact h2
  refine ⟨by rw [hcap]; exact hpos, ?_, ?_, by rw [hkeys]; exact hnd⟩
  · rw [set_replace_size m key v ch2 h, hsz, hlen]
  · intro i _ c hc
    exact placed_of_bucket_keys_eq m (map_set m key v) hcap
      (bucket_keys_of_elems_keys_eq m (map_set m key v) hek) (wf_placed m ⟨hpos, hsz, hpl, hnd⟩)
      i c hc

/-! ### `map_set`, insert branch -/

theorem set_insert_capacity (m : Map) (key : Key) (v : Value)
    (hc : map_contains m key = false) :
    (map_set m key v).capacity = (extend_if_necessary m).capacity := by
  rw [map_set_eq_insert m key v (chainSet_none_of_not_contains m key v hc),
    Map.capacity, Map.capacity]
  exact List.length_set _ _ _

theorem set_insert_size (m : Map) (key : Key) (v : Value)
    (hc : map_contains m key = false) :
    (map_set m key v).size = m.size + 1 := by
  rw [map_set_eq_insert m key v (chainSet_none_of_not_contains m key v hc)]
  show (extend_if_necessary m).size + 1 = m.size + 1
  rw [extend_size]

theorem set_insert_flatten_perm1 (m : Map) (key : Key) (v : Value)
    (hpos : 0 < m.capacity) (hc : map_contains m key = false) :
    ((map_set m key v).elems.flatten).Perm
      ((key, v) :: (extend_if_necessary m).elems.flatten) := by
  rw [map_set_eq_insert m key v (chainSet_none_of_not_contains m key v hc)]
  exact flatten_set_perm (extend_if_necessary m).elems _ (key, v)
    (bucketIdx_lt (extend_if_necessary m) key (extend_capacity_pos m hpos))

theorem set_insert_flatten_perm (m : Map) (key : Key) (v : Value)
    (hpos : 0 < m.capacity) (hc : map_contains m key = false) :
    ((map_set m key v).elems.flatten).Perm ((key, v) :: m.elems.flatten) :=
  (set_insert_flatten_perm1 m key v hpos hc).trans
    (List.Perm.cons (key, v) (extend_flatten_perm m hpos))

theorem set_insert_get (m : Map) (key : Key) (v : Value)
    (hpos : 0 < m.capacity) (hc : map_contains m key = false) :
    map_get (map_set m key v) key = some v := by
  have hcs := chainSet_none_of_not_contains m key v hc
  have hcap := set_insert_capacity m key v hc
  have hb : bucketIdx (map_set m key v) key =
      bucketIdx (extend_if_necessary m) key := by
    rw [bucketIdx, bucketIdx, hcap]
  rw [map_get, hb, map_set_eq_insert m key v hcs]
  show chainFind key
      (((extend_if_necessary m).elems.set (bucketIdx (extend_if_necessary m) key)
        ((key, v) :: bucket (extend_if_necessary m)
          (bucketIdx (extend_if_necessary m) key))).getD
        (bucketIdx (extend_if_necessary m) key) []) = some v
  rw [getD_set_self (extend_if_necessary m).elems _ _ []
    (bucketIdx_lt (extend_if_necessary m) key (extend_capacity_pos m hpos))]
  simp [chainFind]

theorem set_insert_contains (m : Map) (key : Key) (v : Value)
    (hpos : 0 < m.capacity) (hc : map_contains m key = false) :
    map_contains (map_set m key v) key = true :=
  contains_of_get_eq_some _ _ _ (set_insert_get m key v hpos hc)

theorem not_mem_keys_of_contains_false (m : Map) (key : Key)
    (hpos : 0 < m.capacity) (hpl : Placed m)
    (hc : map_contains m key = false) : key ∉ keys m := by
  intro hk
  have h1 := (contains_iff_mem_keys m key hpos hpl).mpr hk
  simp_all

theorem set_insert_wf (m : Map) (key : Key) (v : Value)
    (hwf : Wf m) (hc : map_contains m key = false) :
    Wf (map_set m key v) := by
  obtain ⟨hpos, hsz, hpl, hnd⟩ := hwf
  have hw1 : Wf (extend_if_necessary m) := extend_wf m ⟨hpos, hsz, hpl, hnd⟩
  obtain ⟨hpos1, hsz1, hpl1, hnd1⟩ := hw1
  have hcs := chainSet_none_of_not_contains m key v hc
  have hper := set_insert_flatten_perm1 m key v hpos hc
  have hkey1 : key ∉ keys (extend_if_necessary m) := by
    have h0 : key ∉ keys m :=
      not_mem_keys_of_contains_false m key hpos
        (wf_placed m ⟨hpos, hsz, hpl, hnd⟩) hc
    intro hk
    exact h0 ((extend_keys_perm m hpos).mem_iff.mp hk)
  refine ⟨?_, ?_, ?_, ?_⟩
  · rw [set_insert_capacity m key v hc]
    exact hpos1
  · rw [set_insert_size m key v hc, hper.length_eq]
    have h3 : (extend_if_necessary m).elems.flatten.length = m.size := by
      rw [← hsz1, extend_size]
    simp [h3]
  · intro i hi c hcmem
    rw [set_insert_capacity m key v hc] at hi
    have hcap2 : (map_set m key v).capacity = (extend_if_necessary m).capacity :=
      set_insert_capacity m key v hc
    rw [hcap2]
    simp only [bucket, map_set_eq_insert m key v hcs] at hcmem
    by_cases hib : i = bucketIdx (extend_if_necessary m) key
    · subst hib
      rw [getD_set_self (extend_if_necessary m).elems _ _ []
        (bucketIdx_lt (extend_if_necessary m) key hpos1)] at hcmem
      rcases List.mem_cons.mp hcmem with h1 | h1
      · rw [h1]
        rfl
      · exact hpl1 _ (Nat.mod_lt _ hpos1) c h1
    · rw [getD_set_ne (extend_if_necessary m).elems _ _ _ _ hib] at hcmem
      exact hpl1 i hi c hcmem
  · have hkper : (keys (map_set m key v)).Perm
        (key :: keys (extend_if_necessary m)) := by
      have h4 := hper.map Prod.fst
      simpa [keys] using h4
    rw [hkper.nodup_iff]
    exact List.nodup_cons.mpr ⟨hkey1, hnd1⟩

end CMap

namespace CMap

/-! ### `map_remove` lemmas -/

theorem map_remove_eq_none (m : Map) (key : Key)
    (h : map_contains m key = false) : map_remove m key = none := by
  rw [map_remove]
  simp only [(chainRemove_eq_none_iff key _).mpr h]

theorem chainRemove_isSome_of_contains (m : Map) (key : Key)
    (hc : map_contains m key = true) :
    ∃ v ch2, chainRemove key (bucket m (bucketIdx m key)) = some (v, ch2) := by
  cases hr : chainRemove key (bucket m (bucketIdx m key)) with
  | none =>
    rw [chainRemove_eq_none_iff] at hr
    rw [map_contains] at hc
    simp_all
  | some p => exact ⟨p.1, p.2, rfl⟩

theorem map_remove_eq_some_of_chain (m : Map) (key : Key) (v : Value)
    (ch2 : Chain) (h : chainRemove key (bucket m (bucketIdx m key)) = some (v, ch2)) :
    map_remove m key = some
      (v, { elems := m.elems.set (bucketIdx m key) ch2, size := m.size - 1 }) := by
  rw [map_remove]
  simp only [h]

theorem map_remove_some_inv (m : Map) (key : Key) (v : Value) (m2 : Map)
    (h : map_remove m key = some (v, m2)) :
    ∃ ch2, chainRemove key (bucket m (bucketIdx m key)) = some (v, ch2) ∧
      m2 = { elems := m.elems.set (bucketIdx m key) ch2, size := m.size - 1 } := by
  rw [map_remove] at h
  cases hr : chainRemove key (bucket m (bucketIdx m key)) with
  | none =>
    simp only [hr] at h
    exact Option.noConfusion h
  | some p =>
    simp only [hr, Option.some.injEq, Prod.mk.injEq] at h
    refine ⟨p.2, ?_, h.2.symm⟩
    rw [← h.1]

theorem remove_chain_spec (m : Map) (key : Key) (v : Value) (ch2 : Chain)
    (hpos : 0 < m.capacity)
    (hr : chainRemove key (bucket m (bucketIdx m key)) = some (v, ch2)) :
    map_get m key = some v ∧
    (m.elems.flatten).Perm
      ((key, v) :: (m.elems.set (bucketIdx m key) ch2).flatten) := by
  obtain ⟨pre, suf, hch, hch2, hpre⟩ := chainRemove_some_spec key v _ ch2 hr
  have hgd : m.elems.getD (bucketIdx m key) [] = pre ++ (key, v) :: suf := hch
  constructor
  · rw [map_get, hch, chainFind_append_of_not_contains key pre _ hpre]
    simp [chainFind]
  · rw [flatten_decomp m.elems (bucketIdx m key) (bucketIdx_lt m key hpos), hgd,
      flatten_set m.elems _ ch2 (bucketIdx_lt m key hpos), hch2]
    have hp := @List.perm_middle _ (key, v)
      ((m.elems.take (bucketIdx m key)).flatten ++ pre)
      (suf ++ (m.elems.drop (bucketIdx m key + 1)).flatten)
    simp only [List.append_assoc, List.cons_append, List.flatten_append] at hp ⊢
    exact hp

theorem remove_some_spec (m : Map) (key : Key) (v : Value) (m2 : Map)
    (hwf : Wf m) (h : map_remove m key = some (v, m2)) :
    m2.capacity = m.capacity ∧ map_size m = map_size m2 + 1 ∧
    map_get m key = some v ∧ map_contains m2 key = false ∧ Wf m2 ∧
    (m.elems.flatten).Perm ((key, v) :: m2.elems.flatten) := by
  obtain ⟨hpos, hsz, hpl, hnd⟩ := hwf
  obtain ⟨ch2, hr, hm2⟩ := map_remove_some_inv m key v m2 h
  obtain ⟨hget, hperm⟩ := remove_chain_spec m key v ch2 hpos hr
  obtain ⟨pre, suf, hch, hch2, hpre⟩ := chainRemove_some_spec key v _ ch2 hr
  have hgd : m.elems.getD (bucketIdx m key) [] = pre ++ (key, v) :: suf := hch
  have hsz2 : m2.size = m.size - 1 := by rw [hm2]
  have hcap : m2.capacity = m.capacity := by
    rw [hm2, Map.capacity, Map.capacity]
    exact List.length_set _ _ _
  have hperm2 : (m.elems.flatten).Perm ((key, v) :: m2.elems.flatten) := by
    rw [hm2]
    exact hperm
  have hlen : m.elems.flatten.length = m2.elems.flatten.length + 1 := by
    rw [hperm2.length_eq]
    simp
  have hpos2 : 0 < m2.capacity := by rw [hcap]; exact hpos
  have hkper : (keys m).Perm (key :: keys m2) := by
    have h4 := hperm2.map Prod.fst
    simpa [keys] using h4
  have hnd2 : (key :: keys m2).Nodup := (hkper.nodup_iff).mp hnd
  have hkey2 : key ∉ keys m2 := (List.nodup_cons.mp hnd2).1
  have hpl2 : ∀ i < m2.capacity, ∀ c ∈ bucket m2 i, hash c.1 % m2.capacity = i := by
    intro i hi c hc
    rw [hcap] at hi ⊢
    rw [bucket, hm2] at hc
    by_cases hib : i = bucketIdx m key
    · subst hib
      rw [getD_set_self m.elems _ ch2 [] (bucketIdx_lt m key hpos)] at hc
      refine hpl _ hi c ?_
      rw [bucket, hgd]
      rw [hch2] at hc
      rcases List.mem_append.mp hc with h1 | h1
      · exact List.mem_append.mpr (Or.inl h1)
      · exact List.mem_append.mpr (Or.inr (List.mem_cons_of_mem _ h1))
    · rw [getD_set_ne m.elems _ _ _ _ hib] at hc
      exact hpl i hi c hc
  have hwf2 : Wf m2 := by
    refine ⟨hpos2, ?_, hpl2, (List.nodup_cons.mp hnd2).2⟩
    rw [hsz2]
    omega
  have hc2 : map_contains m2 key = false := by
    cases hcv : map_contains m2 key with
    | false => rfl
    | true =>
      exact absurd ((contains_iff_mem_keys m2 key hpos2 (wf_placed m2 hwf2)).mp hcv) hkey2
  refine ⟨hcap, ?_, hget, hc2, hwf2, hperm2⟩
  rw [map_size, map_size, hsz2]
  omega

end CMap

namespace CMap

/-! ### Iteration lemmas -/

theorem firstKey_eq (l : List Chain) :
    firstKey l = (l.flatten.map Prod.fst).head? := by
  induction l with
  | nil => rfl
  | cons ch rest ih =>
    cases ch with
    | nil => simpa [firstKey] using ih
    | cons c t => simp [firstKey]

theorem map_first_eq (m : Map) : map_first m = (keys m).head? := by
  rw [map_first, keys, firstKey_eq]

theorem afterFirst_append_not_mem (k : Key) (l r : List Key) (h : k ∉ l) :
    afterFirst k (l ++ r) = afterFirst k r := by
  induction l with
  | nil => rfl
  | cons k2 t ih =>
    have h1 : ¬k2 = k := fun he => h (by rw [he]; exact List.mem_cons_self k t)
    have h2 : k ∉ t := fun ht => h (List.mem_cons_of_mem _ ht)
    rw [List.cons_append, afterFirst, if_neg h1, ih h2]

theorem afterFirst_cons_self (k : Key) (rest : List Key) :
    afterFirst k (k :: rest) = rest.head? := by
  simp [afterFirst]

theorem mem_bucket_take (m : Map) (b : Nat) (c : Key × Value)
    (h : c ∈ (m.elems.take b).flatten) :
    ∃ i, i < b ∧ i < m.capacity ∧ c ∈ bucket m i := by
  obtain ⟨ch, hch, hc⟩ := List.mem_flatten.mp h
  rw [List.mem_take_iff_getElem] at hch
  obtain ⟨i, hm, heq⟩ := hch
  have hib : i < b := lt_of_lt_of_le hm inf_le_left
  have hil : i < m.elems.length := lt_of_lt_of_le hm inf_le_right
  refine ⟨i, hib, hil, ?_⟩
  rw [bucket, List.getD_eq_getElem _ _ hil, heq]
  exact hc

theorem next_eq_afterFirst (m : Map) (k : Key) (hwf : Wf m)
    (hk : k ∈ keys m) : map_next m k = afterFirst k (keys m) := by
  obtain ⟨hpos, hsz, hpl, hnd⟩ := hwf
  have hc : map_contains m k = true :=
    (contains_iff_mem_keys m k hpos (wf_placed m ⟨hpos, hsz, hpl, hnd⟩)).mpr hk
  have hcc : chainContains k (bucket m (bucketIdx m k)) = true := by
    rw [map_contains] at hc
    exact hc
  obtain ⟨suf, hsuf⟩ := chainAfter_isSome k _ hcc
  obtain ⟨pre, v, hch, hpre⟩ := chainAfter_some_spec k _ suf hsuf
  have hgd : m.elems.getD (bucketIdx m k) [] = pre ++ (k, v) :: suf := hch
  have hdec : keys m =
      ((m.elems.take (bucketIdx m k)).flatten.map Prod.fst ++ pre.map Prod.fst) ++
        ((k :: suf.map Prod.fst) ++
          (m.elems.drop (bucketIdx m k + 1)).flatten.map Prod.fst) := by
    rw [keys, flatten_decomp m.elems (bucketIdx m k) (bucketIdx_lt m k hpos), hgd]
    simp [List.append_assoc]
  have hkA : k ∉ (m.elems.take (bucketIdx m k)).flatten.map Prod.fst := by
    intro hmem
    obtain ⟨c, hcmem, hck⟩ := List.mem_map.mp hmem
    obtain ⟨i, hib, hilt, hcb⟩ := mem_bucket_take m _ c hcmem
    have hplc := hpl i hilt c hcb
    rw [hck] at hplc
    rw [bucketIdx] at hib
    omega
  have hkpre : k ∉ pre.map Prod.fst := (chainContains_eq_false_iff k pre).mp hpre
  have hrhs : afterFirst k (keys m) =
      (suf.map Prod.fst ++
        (m.elems.drop (bucketIdx m k + 1)).flatten.map Prod.fst).head? := by
    rw [hdec, afterFirst_append_not_mem k _ _ (by simp_all), List.cons_append,
      afterFirst, if_pos rfl]
  rw [hrhs, map_next]
  simp only [hsuf]
  cases suf with
  | nil =>
    simp only [List.map_nil, List.nil_append]
    rw [firstKey_eq]
  | cons c suf2 =>
    simp

/-- One unfolding step of the walk. -/
theorem walkFrom_cons (m : Map) (f : Nat) (k : Key) :
    walkFrom m (f + 1) (some k) = k :: walkFrom m f (map_next m k) := rfl

theorem walkFrom_none (m : Map) (f : Nat) : walkFrom m f none = [] := by
  cases f <;> rfl

theorem walkFrom_eq (m : Map) (hwf : Wf m) :
    ∀ suf pre fuel, keys m = pre ++ suf → suf.length ≤ fuel →
      walkFrom m fuel suf.head? = suf := by
  intro suf
  induction suf with
  | nil =>
    intro pre fuel h1 h2
    exact walkFrom_none m fuel
  | cons k rest ih =>
    intro pre fuel h1 h2
    cases fuel with
    | zero => simp at h2
    | succ f =>
      have hk : k ∈ keys m := by
        rw [h1]
        exact List.mem_append.mpr (Or.inr (List.mem_cons_self k rest))
      have hnext := next_eq_afterFirst m k hwf hk
      have hknotpre : k ∉ pre := by
        intro hkp
        have hnd := hwf.2.2.2
        rw [h1, List.nodup_append] at hnd
        exact hnd.2.2 hkp (List.mem_cons_self k rest)
      have hafter : afterFirst k (keys m) = rest.head? := by
        rw [h1, afterFirst_append_not_mem k pre _ hknotpre, afterFirst_cons_self]
      rw [List.head?_cons, walkFrom_cons, hnext, hafter,
        ih (pre ++ [k]) f (by rw [h1]; simp) (by simpa using h2)]

/-- The full walk from `map_first` visits exactly `keys m`, in order. -/
theorem mapWalk_eq_keys (m : Map) (hwf : Wf m) (fuel : Nat)
    (hf : m.size ≤ fuel) : mapWalk m fuel = keys m := by
  have hlen : (keys m).length = m.size := by
    rw [keys, List.length_map, hwf.2.1]
  rw [mapWalk, map_first_eq]
  exact walkFrom_eq m hwf (keys m) [] fuel (by simp) (by omega)

end CMap

namespace CMap

/-! ### Hash lemmas -/

theorem xor_mod_two_pow (x c n : Nat) (hc : c < 2 ^ n) :
    (x % 2 ^ n) ^^^ c = (x ^^^ c) % 2 ^ n := by
  apply Nat.eq_of_testBit_eq
  intro i
  rw [Nat.testBit_xor, Nat.testBit_mod_two_pow, Nat.testBit_mod_two_pow,
    Nat.testBit_xor]
  by_cases hi : i < n
  · simp [hi]
  · have hcb : c.testBit i = false :=
      Nat.testBit_lt_two_pow
        (lt_of_lt_of_le hc (Nat.pow_le_pow_right (by omega) (Nat.le_of_not_lt hi)))
    simp [hi, hcb]

theorem hash_foldl_lt (key : Key) (a : Nat) (ha : a < 2 ^ 32) :
    key.foldl (fun h c => (h * 31 % 2 ^ 32) ^^^ (c % 256)) a < 2 ^ 32 := by
  induction key generalizing a with
  | nil => exact ha
  | cons c t ih =>
    rw [List.foldl_cons]
    refine ih _ (Nat.xor_lt_two_pow (Nat.mod_lt _ (by omega)) ?_)
    have h1 : c % 256 < 256 := Nat.mod_lt _ (by omega)
    omega

theorem hash_lt (key : Key) : hash key < 2 ^ 32 :=
  hash_foldl_lt key _ (by omega)

theorem hash_foldl_eq (key : Key) :
    ∀ a, (∀ b ∈ key, b < 256) →
      key.foldl (fun h c => (h * 31 % 2 ^ 32) ^^^ (c % 256)) a =
        key.foldl (fun h b => ((h * 31) ^^^ b) % 2 ^ 32) a := by
  induction key with
  | nil => intro a _; rfl
  | cons c t ih =>
    intro a hb
    rw [List.foldl_cons, List.foldl_cons]
    have hc : c < 256 := hb c (List.mem_cons_self c t)
    have hstep : (a * 31 % 2 ^ 32) ^^^ (c % 256) = ((a * 31) ^^^ c) % 2 ^ 32 := by
      rw [Nat.mod_eq_of_lt hc, xor_mod_two_pow (a * 31) c 32 (by omega)]
    rw [hstep]
    exact ih _ (fun b hbm => hb b (List.mem_cons_of_mem _ hbm))

theorem hash_eq_hashSpecFold (key : Key) (h : ∀ b ∈ key, b < 256) :
    hash key = hashSpecFold key :=
  hash_foldl_eq key _ h

/-! ### Reachable-state invariants -/

theorem create_wf : Wf map_create := by decide

theorem set_capacity_cases (m : Map) (key : Key) (v : Value) :
    (map_set m key v).capacity = m.capacity ∨
      (map_set m key v).capacity = 2 * m.capacity := by
  cases hcs : chainSet key v (bucket m (bucketIdx m key)) with
  | some ch2 => exact Or.inl (set_replace_capacity m key v ch2 hcs)
  | none =>
    have h1 : (map_set m key v).capacity = (extend_if_necessary m).capacity := by
      rw [map_set_eq_insert m key v hcs, Map.capacity, Map.capacity]
      exact List.length_set _ _ _
    by_cases he : m.size = m.capacity
    · exact Or.inr (h1.trans (extend_capacity_of_eq m he))
    · exact Or.inl (h1.trans (by rw [extend_eq_of_ne m he]))

theorem remove_capacity_eq (m : Map) (key : Key) (v : Value) (m2 : Map)
    (h : map_remove m key = some (v, m2)) : m2.capacity = m.capacity := by
  obtain ⟨ch2, _, hm2⟩ := map_remove_some_inv m key v m2 h
  rw [hm2, Map.capacity, Map.capacity]
  exact List.length_set _ _ _

theorem contains_false_of_chainSet_none (m : Map) (key : Key) (v : Value)
    (hcs : chainSet key v (bucket m (bucketIdx m key)) = none) :
    map_contains m key = false := by
  rw [map_contains]
  exact (chainSet_eq_none_iff key v _).mp hcs

theorem set_wf (m : Map) (key : Key) (v : Value) (hwf : Wf m) :
    Wf (map_set m key v) := by
  cases hcs : chainSet key v (bucket m (bucketIdx m key)) with
  | some ch2 => exact set_replace_wf m key v ch2 hwf hcs
  | none => exact set_insert_wf m key v hwf (contains_false_of_chainSet_none m key v hcs)

theorem set_size_le (m : Map) (key : Key) (v : Value) (hwf : Wf m)
    (hle : m.size ≤ m.capacity) :
    (map_set m key v).size ≤ (map_set m key v).capacity := by
  cases hcs : chainSet key v (bucket m (bucketIdx m key)) with
  | some ch2 =>
    rw [set_replace_size m key v ch2 hcs, set_replace_capacity m key v ch2 hcs]
    exact hle
  | none =>
    have hc := contains_false_of_chainSet_none m key v hcs
    rw [set_insert_size m key v hc, set_insert_capacity m key v hc]
    by_cases he : m.size = m.capacity
    · rw [extend_capacity_of_eq m he]
      have hpos := hwf.1
      omega
    · rw [extend_eq_of_ne m he]
      omega

theorem reachable_inv (m : Map) (h : Reachable m) :
    Wf m ∧ m.size ≤ m.capacity ∧ ∃ j, m.capacity = 2 ^ j := by
  induction h with
  | create => exact ⟨create_wf, by decide, ⟨0, rfl⟩⟩
  | set m key v hr ih =>
    obtain ⟨hwf, hle, j, hj⟩ := ih
    refine ⟨set_wf m key v hwf, set_size_le m key v hwf hle, ?_⟩
    rcases set_capacity_cases m key v with h1 | h1
    · exact ⟨j, by rw [h1, hj]⟩
    · exact ⟨j + 1, by rw [h1, hj]; ring⟩
  | remove m key v m2 hr hrem ih =>
    obtain ⟨hwf, hle, j, hj⟩ := ih
    obtain ⟨hcap, hsz, hget, hc2, hwf2, hperm⟩ := remove_some_spec m key v m2 hwf hrem
    refine ⟨hwf2, ?_, ⟨j, by rw [hcap, hj]⟩⟩
    rw [map_size, map_size] at hsz
    omega

theorem filter_fst_length_one (l : Chain) (k : Key)
    (hnd : (l.map Prod.fst).Nodup) (hk : k ∈ l.map Prod.fst) :
    (l.filter (fun c => c.1 == k)).length = 1 := by
  induction l with
  | nil => simp at hk
  | cons c t ih =>
    simp only [List.map_cons, List.nodup_cons] at hnd
    by_cases hck : c.1 = k
    · rw [List.filter_cons_of_pos (by simp [hck])]
      have ht : t.filter (fun c => c.1 == k) = [] := by
        rw [List.filter_eq_nil_iff]
        intro a ha
        simp only [beq_iff_eq]
        intro hak
        exact hnd.1 (by rw [hck, ← hak]; exact List.mem_map_of_mem Prod.fst ha)
      simp [ht]
    · rw [List.filter_cons_of_neg (by simp [hck])]
      refine ih hnd.2 ?_
      rcases List.mem_cons.mp hk with h1 | h1
      · exact absurd h1.symm hck
      · exact h1

theorem contains_filter_length_one (m : Map) (key : Key) (hwf : Wf m)
    (hc : map_contains m key = true) :
    (m.elems.flatten.filter (fun c => c.1 == key)).length = 1 := by
  refine filter_fst_length_one m.elems.flatten key hwf.2.2.2 ?_
  exact (contains_iff_mem_keys m key hwf.1 (wf_placed m hwf)).mp hc

end CMap

namespace CMap

/-! ### The claims -/

/-- Claim C1: for every table (every C table has a positive capacity), key
and value, after `map_set t k v` the table contains `k` and `map_get` on `k`
returns exactly `v`. -/
theorem C1_round_trip (m : Map) (key : Key) (v : Value)
    (hpos : 0 < m.capacity) :
    map_contains (map_set m key v) key = true ∧
    map_get (map_set m key v) key = some v := by
  cases hcs : chainSet key v (bucket m (bucketIdx m key)) with
  | some ch2 =>
    have hg := set_replace_get m key v ch2 hpos hcs
    exact ⟨contains_of_get_eq_some _ _ _ hg, hg⟩
  | none =>
    have hc := contains_false_of_chainSet_none m key v hcs
    exact ⟨set_insert_contains m key v hpos hc, set_insert_get m key v hpos hc⟩

theorem C1_round_trip_witness :
    0 < map_create.capacity ∧
    (map_contains (map_set map_create [0] 5) [0] = true ∧
     map_get (map_set map_create [0] 5) [0] = some 5) :=
  ⟨by decide, C1_round_trip map_create [0] 5 (by decide)⟩

/-- Claim C2: `map_set` on a new key doubles the capacity exactly when
`size = capacity` held before the insertion and keeps it otherwise; the
rehash leaves every existing key's value observable unchanged, and the new
key is retrievable (its bucket was recomputed with the new capacity).
Concretely, 3 distinct keys inserted into a fresh capacity-1 table leave
capacity at least 4 with all three keys retrievable. -/
theorem C2_resize_policy (m : Map) (key : Key) (v : Value)
    (hwf : Wf m) (hnew : map_contains m key = false) :
    ((m.size = m.capacity → (map_set m key v).capacity = 2 * m.capacity) ∧
     (m.size ≠ m.capacity → (map_set m key v).capacity = m.capacity)) ∧
    (∀ k2, map_contains m k2 = true →
       map_get (map_set m key v) k2 = map_get m k2) ∧
    map_get (map_set m key v) key = some v ∧
    (4 ≤ (map_set (map_set (map_set map_create [0] 1) [1] 2) [2] 3).capacity ∧
     map_get (map_set (map_set (map_set map_create [0] 1) [1] 2) [2] 3) [0] = some 1 ∧
     map_get (map_set (map_set (map_set map_create [0] 1) [1] 2) [2] 3) [1] = some 2 ∧
     map_get (map_set (map_set (map_set map_create [0] 1) [1] 2) [2] 3) [2] = some 3) := by
  have hcap := set_insert_capacity m key v hnew
  refine ⟨⟨?_, ?_⟩, ?_, set_insert_get m key v hwf.1 hnew, by decide⟩
  · intro he
    rw [hcap, extend_capacity_of_eq m he]
  · intro he
    rw [hcap, extend_eq_of_ne m he]
  · intro k2 hk2
    have hne : k2 ≠ key := fun he => by rw [he] at hk2; simp_all
    obtain ⟨w, hw⟩ := get_isSome_of_contains m k2 hk2
    have hwf2 : Wf (map_set m key v) := set_insert_wf m key v hwf hnew
    rw [hw]
    apply (get_eq_some_iff _ k2 w hwf2.1 (wf_placed _ hwf2) hwf2.2.2.2).mpr
    apply (set_insert_flatten_perm m key v hwf.1 hnew).mem_iff.mpr
    exact List.mem_cons_of_mem _
      ((get_eq_some_iff m k2 w hwf.1 (wf_placed m hwf) hwf.2.2.2).mp hw)

theorem C2_resize_policy_witness :
    (Wf map_create ∧ map_contains map_create [7] = false) ∧
    map_get (map_set map_create [7] 9) [7] = some 9 :=
  ⟨⟨by decide, by decide⟩,
    (C2_resize_policy map_create [7] 9 (by decide) (by decide)).2.2.1⟩

/-- Claim C3: for a well-formed table, walking `map_first`/`map_next` with
any step allowance of at least `size` visits exactly the sequence `keys m`
(bucket 0 chain head-to-tail, then bucket 1, ... — lowest non-empty bucket's
head first, along the chain, then forward through higher buckets, never
wrapping), so each of the `size` stored keys appears exactly once and the
walk then stops at the `none` sentinel. -/
theorem C3_iteration_complete (m : Map) (fuel : Nat) (hwf : Wf m)
    (hf : m.size ≤ fuel) :
    mapWalk m fuel = keys m ∧ (mapWalk m fuel).length = m.size ∧
    (mapWalk m fuel).Nodup ∧
    (∀ k, k ∈ mapWalk m fuel ↔ map_contains m k = true) := by
  have h1 := mapWalk_eq_keys m hwf fuel hf
  refine ⟨h1, ?_, ?_, ?_⟩
  · rw [h1, keys, List.length_map, hwf.2.1]
  · rw [h1]
    exact hwf.2.2.2
  · intro k
    rw [h1]
    exact (contains_iff_mem_keys m k hwf.1 (wf_placed m hwf)).symm

theorem C3_iteration_complete_witness :
    (Wf (map_set (map_set (map_set map_create [0] 1) [1] 2) [2] 3) ∧
     (map_set (map_set (map_set map_create [0] 1) [1] 2) [2] 3).size ≤ 3) ∧
    mapWalk (map_set (map_set (map_set map_create [0] 1) [1] 2) [2] 3) 3 =
      keys (map_set (map_set (map_set map_create [0] 1) [1] 2) [2] 3) :=
  ⟨⟨by decide, by decide⟩,
    (C3_iteration_complete (map_set (map_set (map_set map_create [0] 1) [1] 2) [2] 3)
      3 (by decide) (by decide)).1⟩

/-- Claim C4: removing a present key returns exactly the stored value
handle (the one `map_get` would return), after which the key is no longer
contained and the size has decreased by exactly one. -/
theorem C4_remove (m : Map) (key : Key) (hwf : Wf m)
    (hc : map_contains m key = true) :
    ∃ v m2, map_remove m key = some (v, m2) ∧ map_get m key = some v ∧
      map_contains m2 key = false ∧ map_size m = map_size m2 + 1 := by
  obtain ⟨v, ch2, hr⟩ := chainRemove_isSome_of_contains m key hc
  have heq := map_remove_eq_some_of_chain m key v ch2 hr
  obtain ⟨hcap, hsz, hget, hc2, hwf2, hperm⟩ := remove_some_spec m key v _ hwf heq
  exact ⟨v, _, heq, hget, hc2, hsz⟩

theorem C4_remove_witness :
    (Wf (map_set map_create [0] 7) ∧
     map_contains (map_set map_create [0] 7) [0] = true) ∧
    (∃ v m2, map_remove (map_set map_create [0] 7) [0] = some (v, m2) ∧
      map_get (map_set map_create [0] 7) [0] = some v ∧
      map_contains m2 [0] = false ∧
      map_size (map_set map_create [0] 7) = map_size m2 + 1) :=
  ⟨⟨by decide, by decide⟩,
    C4_remove (map_set map_create [0] 7) [0] (by decide) (by decide)⟩

/-- Claim C5: overwriting a present key twice leaves the size unchanged,
makes `map_get` return the second value, and keeps the stored keys (per
bucket, in place) unchanged. -/
theorem C5_overwrite (m : Map) (key : Key) (v1 v2 : Value)
    (hpos : 0 < m.capacity) (hc : map_contains m key = true) :
    map_size (map_set (map_set m key v1) key v2) = map_size m ∧
    map_get (map_set (map_set m key v1) key v2) key = some v2 ∧
    keys (map_set (map_set m key v1) key v2) = keys m := by
  obtain ⟨ch2, hcs⟩ := chainSet_some_of_contains m key v1 hc
  have hcap1 := set_replace_capacity m key v1 ch2 hcs
  have hsz1 := set_replace_size m key v1 ch2 hcs
  have hkeys1 := set_replace_keys m key v1 ch2 hcs
  have hget1 := set_replace_get m key v1 ch2 hpos hcs
  have hc1 : map_contains (map_set m key v1) key = true :=
    contains_of_get_eq_some _ _ _ hget1
  have hpos1 : 0 < (map_set m key v1).capacity := by
    rw [hcap1]
    exact hpos
  obtain ⟨ch3, hcs3⟩ := chainSet_some_of_contains (map_set m key v1) key v2 hc1
  refine ⟨?_, set_replace_get _ key v2 ch3 hpos1 hcs3, ?_⟩
  · rw [map_size, map_size, set_replace_size _ key v2 ch3 hcs3, hsz1]
  · rw [set_replace_keys _ key v2 ch3 hcs3, hkeys1]

theorem C5_overwrite_witness :
    (0 < (map_set map_create [3] 1).capacity ∧
     map_contains (map_set map_create [3] 1) [3] = true) ∧
    (map_size (map_set (map_set (map_set map_create [3] 1) [3] 4) [3] 6) =
       map_size (map_set map_create [3] 1) ∧
     map_get (map_set (map_set (map_set map_create [3] 1) [3] 4) [3] 6) [3] =
       some 6) :=
  ⟨⟨by decide, by decide⟩,
    ⟨(C5_overwrite (map_set map_create [3] 1) [3] 4 6 (by decide) (by decide)).1,
     (C5_overwrite (map_set map_create [3] 1) [3] 4 6 (by decide) (by decide)).2.1⟩⟩

/-- Claim C6: a growth event (`extend_if_necessary`, the capacity-doubling
full rehash run by insertions) changes no externally observable state for
existing keys: membership and the retrieved value handle are preserved. -/
theorem C6_resize_transparency (m : Map) (key : Key) (hwf : Wf m)
    (hc : map_contains m key = true) :
    map_contains (extend_if_necessary m) key = true ∧
    map_get (extend_if_necessary m) key = map_get m key := by
  have hwf2 := extend_wf m hwf
  have hmem : key ∈ keys m :=
    (contains_iff_mem_keys m key hwf.1 (wf_placed m hwf)).mp hc
  have hmem2 : key ∈ keys (extend_if_necessary m) :=
    (extend_keys_perm m hwf.1).mem_iff.mpr hmem
  refine ⟨(contains_iff_mem_keys _ key hwf2.1 (wf_placed _ hwf2)).mpr hmem2, ?_⟩
  obtain ⟨w, hw⟩ := get_isSome_of_contains m key hc
  rw [hw]
  apply (get_eq_some_iff _ key w hwf2.1 (wf_placed _ hwf2) hwf2.2.2.2).mpr
  apply (extend_flatten_perm m hwf.1).mem_iff.mpr
  exact (get_eq_some_iff m key w hwf.1 (wf_placed m hwf) hwf.2.2.2).mp hw

theorem C6_resize_transparency_witness :
    (Wf (map_set map_create [1] 8) ∧
     map_contains (map_set map_create [1] 8) [1] = true) ∧
    map_get (extend_if_necessary (map_set map_create [1] 8)) [1] =
      map_get (map_set map_create [1] 8) [1] :=
  ⟨⟨by decide, by decide⟩,
    (C6_resize_transparency (map_set map_create [1] 8) [1]
      (by decide) (by decide)).2⟩

/-- Claim C7: every table reachable from `map_create` by `map_set` and
`map_remove` satisfies, after each operation: `size ≤ capacity`; the
capacity is a positive power of two (starting at 1 for `map_create`) that
a `map_set` either keeps or doubles and a `map_remove` keeps, so it never
shrinks; every cell sits in the bucket of its key's hash modulo capacity;
and a contained key is stored in exactly one cell across all buckets. -/
theorem C7_invariants (m : Map) (h : Reachable m) :
    m.size ≤ m.capacity ∧ (∃ j, m.capacity = 2 ^ j) ∧ 0 < m.capacity ∧
    map_create.capacity = 1 ∧
    (∀ i, ∀ c ∈ bucket m i, hash c.1 % m.capacity = i) ∧
    (∀ key, map_contains m key = true →
      (m.elems.flatten.filter (fun c => c.1 == key)).length = 1) ∧
    (∀ key v, m.capacity ≤ (map_set m key v).capacity ∧
      ((map_set m key v).capacity = m.capacity ∨
        (map_set m key v).capacity = 2 * m.capacity)) ∧
    (∀ key v m2, map_remove m key = some (v, m2) → m2.capacity = m.capacity) := by
  obtain ⟨hwf, hle, j, hj⟩ := reachable_inv m h
  refine ⟨hle, ⟨j, hj⟩, hwf.1, rfl, wf_placed m hwf,
    fun key => contains_filter_length_one m key hwf, ?_, ?_⟩
  · intro key v
    rcases set_capacity_cases m key v with h1 | h1 <;> constructor <;> omega
  · intro key v m2 hrem
    exact remove_capacity_eq m key v m2 hrem

theorem C7_invariants_witness :
    Reachable map_create ∧ map_create.size ≤ map_create.capacity :=
  ⟨Reachable.create, (C7_invariants map_create Reachable.create).1⟩

/-- Claim C8: for a key not present, `map_get` and `map_remove` reach their
failure branch (`assert(key_found); exit(1)` in C, modelled as `none`):
neither returns a result, and — the failure branch constructing no new map
state — the table's observable state is untouched by the failed call. -/
theorem C8_missing_key (m : Map) (key : Key)
    (hc : map_contains m key = false) :
    map_get m key = none ∧ map_remove m key = none :=
  ⟨(get_eq_none_iff m key).mpr hc, map_remove_eq_none m key hc⟩

theorem C8_missing_key_witness :
    map_contains map_create [2] = false ∧
    (map_get map_create [2] = none ∧ map_remove map_create [2] = none) :=
  ⟨by decide, C8_missing_key map_create [2] (by decide)⟩

/-- Claim C9: for every key made of bytes, `hash` is the fold over the
bytes, in order, from the all-ones 32-bit seed with step
`h := ((h * 31) XOR byte) mod 2^32`; the hash of the empty string is
`2^32 - 1`, and hashes stay below `2^32` (`hash` is a function, so the same
key always hashes to the same value). -/
theorem C9_hash_fold (key : Key) (h : ∀ b ∈ key, b < 256) :
    hash key = hashSpecFold key ∧ hash [] = 2 ^ 32 - 1 ∧ hash key < 2 ^ 32 :=
  ⟨hash_eq_hashSpecFold key h, rfl, hash_lt key⟩

theorem C9_hash_fold_witness :
    (∀ b ∈ ([104, 105] : Key), b < 256) ∧
    (hash [104, 105] = hashSpecFold [104, 105] ∧ hash [] = 2 ^ 32 - 1 ∧
     hash [104, 105] < 2 ^ 32) :=
  ⟨by decide, C9_hash_fold [104, 105] (by decide)⟩

/-- Claim C10: `map_set` on an already-present key never reaches the growth
check: the capacity and the per-bucket key arrangement are untouched (only
the one stored value changes), even if `size = capacity` at call time: the
theorem's hypotheses place no constraint relating size and capacity. -/
theorem C10_overwrite_no_growth (m : Map) (key : Key) (v : Value)
    (hc : map_contains m key = true) :
    (map_set m key v).capacity = m.capacity ∧
    (map_set m key v).elems.map (List.map Prod.fst) =
      m.elems.map (List.map Prod.fst) := by
  obtain ⟨ch2, hcs⟩ := chainSet_some_of_contains m key v hc
  exact ⟨set_replace_capacity m key v ch2 hcs, set_replace_elems_keys m key v ch2 hcs⟩

theorem C10_overwrite_no_growth_witness :
    map_contains (map_set map_create [4] 1) [4] = true ∧
    (map_set (map_set map_create [4] 1) [4] 2).capacity =
      (map_set map_create [4] 1).capacity :=
  ⟨by decide,
    (C10_overwrite_no_growth (map_set map_create [4] 1) [4] 2 (by decide)).1⟩

end CMap
